import Mathlib

/-!
Shallow embedding of the "price ledger" protocol handler (`bank.rs`):
the 9-byte frame decoder (`MessageDecoder::decode` driven by `FramedRead`),
the per-session ordered price store (`BTreeMap<i32, i32>`, modelled as a
strictly key-sorted association list), and the session dispatch loop
(`Session::start`, `Session::get_mean`).

Machine integers are modelled as unbounded `Int` with explicit
two's-complement narrowing (`toI32`, `toI64`) exactly where the Rust code
narrows (`as i32`, `i32::from_be_bytes`) or accumulates in `i64`.
Bytes are natural numbers (the meaningful range is `< 256`).
-/

namespace Bank

/-- `enum Message` from bank.rs: `Insert { timestamp, price }` ,
`Query { start, end }` , `Invalid`. Fields are positional:
`Insert timestamp price` and `Query start end`. -/
inductive Message : Type
  | Insert : Int → Int → Message
  | Query : Int → Int → Message
  | Invalid : Message
  deriving Repr, DecidableEq

/-- Two's-complement narrowing to a signed 32-bit value
(Rust `as i32` and the wraparound of `i32::from_be_bytes`). -/
def toI32 (n : Int) : Int := (n + 2 ^ 31) % 2 ^ 32 - 2 ^ 31

/-- Two's-complement narrowing to a signed 64-bit value (Rust `i64` wraparound). -/
def toI64 (n : Int) : Int := (n + 2 ^ 63) % 2 ^ 64 - 2 ^ 63

/-- Big-endian interpretation of a byte list as an `i32`
(`i32::from_be_bytes` on the 4-byte case). -/
def beI32 (bytes : List Nat) : Int :=
  toI32 (bytes.foldl (fun acc b => acc * 256 + (b : Int)) 0)

/-- `fn to_num(bytes: &[u8]) -> i32` from bank.rs. The source asserts
`bytes.len() == 4` and then reads a big-endian `i32`; `none` models the
assertion firing (a panic). -/
def to_num (bytes : List Nat) : Option Int :=
  if bytes.length = 4 then some (beI32 bytes) else none

/-- `MessageDecoder::decode` from bank.rs. If fewer than 9 bytes are
buffered it emits nothing and leaves the buffer untouched (`Ok(None)`);
otherwise it reads the tag byte `src[0]`, the fields `src[1..5]` and
`src[5..9]` via `to_num`, advances the buffer by 9 bytes, and emits one
message chosen by the tag (`b'I'` = 73, `b'Q'` = 81, anything else
`Invalid`). The outer `none` models a `to_num` assertion panic. -/
def decode (src : List Nat) : Option (Option Message × List Nat) :=
  if src.length < 9 then
    some (none, src)
  else
    match to_num ((src.drop 1).take 4), to_num ((src.drop 5).take 4) with
    | some num1, some num2 =>
      let msg_type := src.headD 0
      let rest := src.drop 9
      if msg_type = 73 then some (some (Message.Insert num1 num2), rest)
      else if msg_type = 81 then some (some (Message.Query num1 num2), rest)
      else some (some Message.Invalid, rest)
    | _, _ => none

/-- The message decoded from the first 9 bytes of a buffer (the successful
branch of `decode`, restructured as a total function for reasoning). -/
def mkFrameMessage (src : List Nat) : Message :=
  if src.headD 0 = 73 then
    Message.Insert (beI32 ((src.drop 1).take 4)) (beI32 ((src.drop 5).take 4))
  else if src.headD 0 = 81 then
    Message.Query (beI32 ((src.drop 1).take 4)) (beI32 ((src.drop 5).take 4))
  else Message.Invalid

/-- The `FramedRead` decode loop on one buffer: `decode` is called
repeatedly, each emitted message is collected, until `decode` asks for
more bytes; returns the messages and the leftover buffer. The guard on
the recursive call always holds (`decode` consumes 9 bytes when it emits)
and only serves termination. -/
def decodeAll (src : List Nat) : List Message × List Nat :=
  match decode src with
  | some (some m, rest) =>
    if h : rest.length < src.length then
      let r := decodeAll rest
      (m :: r.1, r.2)
    else ([], src)
  | _ => ([], src)
termination_by src.length
decreasing_by exact h

/-- The `FramedRead` read loop: each arriving chunk is appended to the
accumulated buffer and `decodeAll` drains every complete frame; the
decoded messages of all reads are concatenated in order. -/
def runChunks (buf : List Nat) : List (List Nat) → List Message × List Nat
  | [] => ([], buf)
  | c :: cs =>
    let r := decodeAll (buf ++ c)
    let rest := runChunks r.2 cs
    (r.1 ++ rest.1, rest.2)

/-- Membership test of `BTreeMap::range(start..=end)`: the key lies in the
inclusive range. -/
def inRange (s e : Int) (kv : Int × Int) : Bool :=
  decide (s ≤ kv.1) && decide (kv.1 ≤ e)

/-- `Session::get_mean` from bank.rs. The store is the sorted association
list modelling `BTreeMap<i32, i32>`. If `start > end`, returns 0 at once.
Otherwise iterates the entries with key in `start..=end`, counting them and
summing the prices in `i64` (wraparound of the running `i64` sum commutes
with addition, so it is modelled by one final `toI64`); returns 0 on an
empty range, else the `i64` truncating division `total / count` narrowed
by `as i32`. -/
def get_mean (prices : List (Int × Int)) (s e : Int) : Int :=
  if s > e then 0
  else
    let count : Int := (prices.filter (inRange s e)).length
    let total : Int := toI64 ((prices.filter (inRange s e)).map Prod.snd).sum
    if count = 0 then 0 else toI32 (Int.tdiv total count)

/-- `BTreeMap::insert` on the sorted-association-list model of
`self.prices`: places the entry at its key-ordered position, replacing the
value if the key is already present. -/
def insertPrice : List (Int × Int) → Int → Int → List (Int × Int)
  | [], t, p => [(t, p)]
  | (k, v) :: rest, t, p =>
    if t < k then (t, p) :: (k, v) :: rest
    else if t = k then (t, p) :: rest
    else (k, v) :: insertPrice rest t p

/-- `BTreeMap::get` on the association-list model. -/
def lookupPrice : List (Int × Int) → Int → Option Int
  | [], _ => none
  | kv :: rest, t => if kv.1 = t then some kv.2 else lookupPrice rest t

/-- The store obtained from a fresh session (`BTreeMap::new()`) after a
sequence of `insert(timestamp, price)` calls. -/
def buildStore (ops : List (Int × Int)) : List (Int × Int) :=
  ops.foldl (fun m kv => insertPrice m kv.1 kv.2) []

/-- `write_i32` (tokio), which writes an `i32` as 4 big-endian bytes. -/
def i32be (n : Int) : List Nat :=
  let u := (n % 2 ^ 32).toNat
  [u / 2 ^ 24 % 256, u / 2 ^ 16 % 256, u / 2 ^ 8 % 256, u % 256]

/-- The ASCII bytes of the diagnostic payload `b"undefined behavior"`. -/
def undefinedBehavior : List Nat :=
  [117, 110, 100, 101, 102, 105, 110, 101, 100, 32,
   98, 101, 104, 97, 118, 105, 111, 114]

/-- One iteration of the `Session::start` dispatch loop: given the current
store and one decoded message, the store afterwards and the bytes written
to the connection. `Query` answers with the 4 big-endian bytes of the mean
and leaves the store alone; `Insert` updates the store and writes nothing;
`Invalid` writes the diagnostic payload. -/
def processMessage (prices : List (Int × Int)) :
    Message → List (Int × Int) × List Nat
  | Message.Query s e => (prices, i32be (get_mean prices s e))
  | Message.Insert t p => (insertPrice prices t p, [])
  | Message.Invalid => (prices, undefinedBehavior)

/-- The `Session::start` loop over a sequence of decoded messages: threads
the store through `processMessage` and concatenates everything written to
the connection, in message order. -/
def runSession (prices : List (Int × Int)) :
    List Message → List (Int × Int) × List Nat
  | [] => (prices, [])
  | m :: ms =>
    let r := processMessage prices m
    let rest := runSession r.1 ms
    (rest.1, r.2 ++ rest.2)

/-- Bytes the session writes at end of stream given the leftover decoder
buffer. `MessageDecoder` does not override `Decoder::decode_eof`, so the
tokio_util default applies: with an empty leftover buffer the stream ends
cleanly; with a non-empty sub-frame leftover it yields an error
(`"bytes remaining on stream"`), which the `Err` arm of `Session::start`
answers by writing the diagnostic payload. The repository's own
`truncated_message` test (bank.rs) pins this: a trailing partial frame
must produce exactly `b"undefined behavior"` on the connection. -/
def eofOutput (rest : List Nat) : List Nat :=
  if rest.isEmpty then [] else undefinedBehavior

/-- The complete per-connection behavior on a byte stream delivered as a
list of reads followed by end of stream: every message decoded by the read
loop is dispatched in order, then the end-of-stream step runs on the
leftover buffer. Returns all bytes written on the connection. -/
def sessionOutput (chunks : List (List Nat)) : List Nat :=
  (runSession [] (runChunks [] chunks).1).2 ++ eofOutput (runChunks [] chunks).2

/-- Key ordering relation of the store. -/
def keyLt (a b : Int × Int) : Prop := a.1 < b.1

instance : DecidableRel keyLt := fun a b => by
  unfold keyLt
  infer_instance

/-! Lemmas about the decoder. -/

lemma length_slice1 {src : List Nat} (h : 9 ≤ src.length) :
    ((src.drop 1).take 4).length = 4 := by
  simp [List.length_take, List.length_drop]
  omega

lemma length_slice2 {src : List Nat} (h : 9 ≤ src.length) :
    ((src.drop 5).take 4).length = 4 := by
  simp [List.length_take, List.length_drop]
  omega

/-- Closed form of `decode`: below 9 bytes nothing is emitted, at or above
9 bytes the first frame is decoded and exactly 9 bytes are consumed. -/
lemma decode_spec (src : List Nat) :
    decode src =
      if src.length < 9 then some (none, src)
      else some (some (mkFrameMessage src), src.drop 9) := by
  by_cases h : src.length < 9
  · simp [decode, h]
  · have h9 : 9 ≤ src.length := by omega
    simp only [decode, h, if_false, to_num, length_slice1 h9, length_slice2 h9,
      if_true, mkFrameMessage]
    split
    · simp_all
    · split <;> simp_all

lemma decodeAll_lt {src : List Nat} (h : src.length < 9) :
    decodeAll src = ([], src) := by
  rw [decodeAll, decode_spec]
  simp [h]

lemma decodeAll_ge {src : List Nat} (h : 9 ≤ src.length) :
    decodeAll src =
      (mkFrameMessage src :: (decodeAll (src.drop 9)).1,
       (decodeAll (src.drop 9)).2) := by
  rw [decodeAll, decode_spec]
  have hlt : ¬ src.length < 9 := by omega
  have hd : (src.drop 9).length < src.length := by
    simp [List.length_drop]; omega
  have hne : src ≠ [] := List.ne_nil_of_length_pos (by omega)
  simp [hlt, hd, hne]

/-- The first decoded frame depends only on the first 9 buffered bytes. -/
lemma mkFrameMessage_append {a : List Nat} (b : List Nat) (h : 9 ≤ a.length) :
    mkFrameMessage (a ++ b) = mkFrameMessage a := by
  have hne : a ≠ [] := List.ne_nil_of_length_pos (by omega)
  have hh : (a ++ b).headD 0 = a.headD 0 := by
    cases a with
    | nil => exact absurd rfl hne
    | cons x xs => rfl
  have h1 : ((a ++ b).drop 1).take 4 = (a.drop 1).take 4 := by
    rw [List.drop_append_of_le_length (by omega),
      List.take_append_of_le_length (by simp [List.length_drop]; omega)]
  have h5 : ((a ++ b).drop 5).take 4 = (a.drop 5).take 4 := by
    rw [List.drop_append_of_le_length (by omega),
      List.take_append_of_le_length (by simp [List.length_drop]; omega)]
  simp only [mkFrameMessage]
  rw [hh, h1, h5]

/-- Number of messages and leftover of one `decodeAll` pass: exactly
`length / 9` messages are decoded and `length % 9` bytes remain buffered. -/
lemma decodeAll_card (n : Nat) : ∀ src : List Nat, src.length ≤ n →
    (decodeAll src).1.length = src.length / 9 ∧
    (decodeAll src).2 = src.drop (9 * (src.length / 9)) := by
  induction n with
  | zero =>
    intro src hle
    have h : src.length < 9 := by omega
    simp [decodeAll_lt h, Nat.div_eq_of_lt h]
  | succ n ih =>
    intro src hle
    by_cases h : src.length < 9
    · simp [decodeAll_lt h, Nat.div_eq_of_lt h]
    · have h9 : 9 ≤ src.length := by omega
      have hlen : (src.drop 9).length ≤ n := by
        simp [List.length_drop]; omega
      obtain ⟨ih1, ih2⟩ := ih (src.drop 9) hlen
      have hdiv : src.length / 9 = (src.length - 9) / 9 + 1 :=
        Nat.div_eq_sub_div (by omega) h9
      constructor
      · rw [decodeAll_ge h9]
        simp only [List.length_cons, ih1, List.length_drop]
        omega
      · rw [decodeAll_ge h9, ih2]
        rw [List.drop_drop, List.length_drop]
        congr 1
        omega

/-- Splitting a buffer after a prefix: `decodeAll` of the whole equals the
messages of the prefix followed by the messages of (prefix leftover ++ rest),
with the final leftover of the latter. -/
lemma decodeAll_append_aux (n : Nat) : ∀ a b : List Nat, a.length ≤ n →
    decodeAll (a ++ b) =
      ((decodeAll a).1 ++ (decodeAll ((decodeAll a).2 ++ b)).1,
       (decodeAll ((decodeAll a).2 ++ b)).2) := by
  induction n with
  | zero =>
    intro a b hle
    have h : a.length < 9 := by omega
    simp [decodeAll_lt h]
  | succ n ih =>
    intro a b hle
    by_cases h : a.length < 9
    · simp [decodeAll_lt h]
    · have h9 : 9 ≤ a.length := by omega
      have hab : 9 ≤ (a ++ b).length := by
        simp [List.length_append]; omega
      have hdrop : (a ++ b).drop 9 = a.drop 9 ++ b :=
        List.drop_append_of_le_length (by omega)
      have hlen : (a.drop 9).length ≤ n := by
        simp [List.length_drop]; omega
      rw [decodeAll_ge hab, decodeAll_ge h9, hdrop,
        mkFrameMessage_append b h9, ih (a.drop 9) b hlen]
      simp

lemma decodeAll_append (a b : List Nat) :
    decodeAll (a ++ b) =
      ((decodeAll a).1 ++ (decodeAll ((decodeAll a).2 ++ b)).1,
       (decodeAll ((decodeAll a).2 ++ b)).2) :=
  decodeAll_append_aux a.length a b le_rfl

/-- The buffer left over by a `decodeAll` pass always holds fewer than
9 bytes. -/
lemma decodeAll_leftover (src : List Nat) : (decodeAll src).2.length < 9 := by
  obtain ⟨-, h2⟩ := decodeAll_card src.length src le_rfl
  rw [h2]
  simp [List.length_drop]
  omega

lemma runChunks_eq_decodeAll (cs : List (List Nat)) :
    ∀ buf : List Nat, buf.length < 9 →
    runChunks buf cs = decodeAll (buf ++ cs.flatten) := by
  induction cs with
  | nil =>
    intro buf h
    simp [runChunks, decodeAll_lt h]
  | cons c cs ih =>
    intro buf h
    have hleft := decodeAll_leftover (buf ++ c)
    rw [List.flatten_cons, ← List.append_assoc,
      decodeAll_append (buf ++ c) cs.flatten]
    simp only [runChunks]
    rw [ih (decodeAll (buf ++ c)).2 hleft]

/-! Arithmetic facts about the two's-complement narrowings and the
truncating division. -/

lemma toI32_eq_self {n : Int} (h1 : -(2 ^ 31) ≤ n) (h2 : n < 2 ^ 31) :
    toI32 n = n := by
  unfold toI32
  rw [Int.emod_eq_of_lt (by omega) (by omega)]
  omega

lemma toI64_eq_self {n : Int} (h1 : -(2 ^ 63) ≤ n) (h2 : n < 2 ^ 63) :
    toI64 n = n := by
  unfold toI64
  rw [Int.emod_eq_of_lt (by omega) (by omega)]
  omega

/-- Sum bound: a list of values each within `[-M, M)` sums to within
`[-len * M, len * (M - 1)]`. -/
lemma sum_bounds {M : Int} : ∀ l : List Int, (∀ x ∈ l, -M ≤ x ∧ x < M) →
    -((l.length : Int) * M) ≤ l.sum ∧ l.sum ≤ (l.length : Int) * (M - 1) := by
  intro l
  induction l with
  | nil => intro _; simp
  | cons x xs ih =>
    intro h
    obtain ⟨hx1, hx2⟩ := h x (by simp)
    obtain ⟨ih1, ih2⟩ := ih (fun y hy => h y (by simp [hy]))
    simp only [List.sum_cons, List.length_cons]
    push_cast
    constructor <;> nlinarith

/-- A strictly increasing list of integers confined to `[lo, hi)` has at
most `hi - lo` elements. -/
lemma length_le_of_sorted_bounded :
    ∀ (l : List Int) (lo hi : Int), lo ≤ hi → l.Pairwise (· < ·) →
    (∀ x ∈ l, lo ≤ x ∧ x < hi) → (l.length : Int) ≤ hi - lo := by
  intro l
  induction l with
  | nil =>
    intro lo hi hlh _ _
    simp
    omega
  | cons x xs ih =>
    intro lo hi hlh hp hb
    have hx := hb x (by simp)
    have hp' := (List.pairwise_cons.mp hp)
    have hxs : ∀ y ∈ xs, x + 1 ≤ y ∧ y < hi := by
      intro y hy
      exact ⟨by have := hp'.1 y hy; omega, (hb y (by simp [hy])).2⟩
    have := ih (x + 1) hi (by omega) hp'.2 hxs
    simp only [List.length_cons]
    push_cast
    omega

/-- Truncating division of a sum of `count` values each in `[-M, M)` by
`count` stays in `[-M, M)` (the mean of bounded values is bounded). -/
lemma tdiv_mean_bounds {total M : Int} (count : Int) (hc : 0 < count)
    (hM : 0 < M) (h1 : -(count * M) ≤ total) (h2 : total ≤ count * M - count) :
    -M ≤ Int.tdiv total count ∧ Int.tdiv total count < M := by
  rcases le_or_lt 0 total with hpos | hneg
  · rw [Int.tdiv_eq_ediv hpos (by omega)]
    constructor
    · have : (0 : Int) ≤ total / count := Int.ediv_nonneg hpos (by omega)
      omega
    · have h3 : total / count ≤ (count * (M - 1)) / count := by
        apply Int.ediv_le_ediv hc
        nlinarith
      rw [Int.mul_ediv_cancel_left _ (by omega)] at h3
      omega
  · have hneg' : total.tdiv count = -((-total).tdiv count) := by
      rw [← Int.neg_tdiv, neg_neg]
    rw [hneg']
    have hnn : (0 : Int) ≤ -total := by omega
    rw [Int.tdiv_eq_ediv hnn (by omega)]
    constructor
    · have h3 : (-total) / count ≤ (count * M) / count := by
        apply Int.ediv_le_ediv hc
        omega
      rw [Int.mul_ediv_cancel_left _ (by omega)] at h3
      omega
    · have : (0 : Int) ≤ (-total) / count := Int.ediv_nonneg hnn (by omega)
      omega

/-! Structural facts about the sorted-association-list store. -/

lemma mem_insertPrice {x : Int × Int} :
    ∀ {l : List (Int × Int)} {t p : Int},
    x ∈ insertPrice l t p → x = (t, p) ∨ x ∈ l := by
  intro l
  induction l with
  | nil =>
    intro t p hx
    simp [insertPrice] at hx
    simp [hx]
  | cons kv rest ih =>
    intro t p hx
    obtain ⟨k, v⟩ := kv
    simp only [insertPrice] at hx
    split at hx
    · rcases List.mem_cons.mp hx with h | h
      · exact Or.inl h
      · exact Or.inr h
    · split at hx
      · rcases List.mem_cons.mp hx with h | h
        · exact Or.inl h
        · exact Or.inr (List.mem_cons_of_mem _ h)
      · rcases List.mem_cons.mp hx with h | h
        · exact Or.inr (h ▸ List.mem_cons_self _ _)
        · rcases ih h with h' | h'
          · exact Or.inl h'
          · exact Or.inr (List.mem_cons_of_mem _ h')

/-- `insertPrice` preserves strict key sortedness (and hence key
uniqueness). -/
lemma pairwise_insertPrice :
    ∀ {l : List (Int × Int)} {t p : Int},
    l.Pairwise keyLt → (insertPrice l t p).Pairwise keyLt := by
  intro l
  induction l with
  | nil =>
    intro t p _
    simp [insertPrice]
  | cons kv rest ih =>
    intro t p hl
    obtain ⟨k, v⟩ := kv
    rw [List.pairwise_cons] at hl
    obtain ⟨hhead, htail⟩ := hl
    simp only [insertPrice]
    split
    · rename_i hlt
      rw [List.pairwise_cons]
      refine ⟨?_, List.pairwise_cons.mpr ⟨hhead, htail⟩⟩
      intro y hy
      rcases List.mem_cons.mp hy with hy | hy
      · subst hy
        simpa [keyLt] using hlt
      · have := hhead y hy
        simp only [keyLt] at *
        omega
    · split
      · rename_i hne heq
        rw [List.pairwise_cons]
        refine ⟨?_, htail⟩
        intro y hy
        have := hhead y hy
        simp only [keyLt] at *
        omega
      · rename_i hne hne'
        rw [List.pairwise_cons]
        refine ⟨?_, ih htail⟩
        intro y hy
        rcases mem_insertPrice hy with h' | h'
        · simp only [keyLt, h']
          omega
        · exact hhead y h'

/-- A fresh store filled by any sequence of inserts is strictly
key-sorted. -/
lemma pairwise_buildStore (ops : List (Int × Int)) :
    (buildStore ops).Pairwise keyLt := by
  suffices h : ∀ acc : List (Int × Int), acc.Pairwise keyLt →
      (ops.foldl (fun m kv => insertPrice m kv.1 kv.2) acc).Pairwise keyLt by
    exact h [] (by simp)
  induction ops with
  | nil => intro acc hacc; simpa
  | cons kv rest ih =>
    intro acc hacc
    exact ih _ (pairwise_insertPrice hacc)

lemma filter_key_eq_nil {l : List (Int × Int)} {t : Int}
    (h : ∀ kv ∈ l, t < kv.1) :
    l.filter (fun kv => decide (kv.1 = t)) = [] := by
  rw [List.filter_eq_nil_iff]
  intro kv hkv
  have := h kv hkv
  simp
  omega

/-- In a sorted store, after `insertPrice l t p` the entries with key `t`
are exactly the single entry `(t, p)`: the insert overwrote any previous
value and created no duplicate. -/
lemma filter_key_insertPrice :
    ∀ {l : List (Int × Int)} {t p : Int}, l.Pairwise keyLt →
    (insertPrice l t p).filter (fun kv => decide (kv.1 = t)) = [(t, p)] := by
  intro l
  induction l with
  | nil =>
    intro t p _
    simp [insertPrice]
  | cons kv rest ih =>
    intro t p hl
    obtain ⟨k, v⟩ := kv
    rw [List.pairwise_cons] at hl
    obtain ⟨hhead, htail⟩ := hl
    simp only [insertPrice]
    split
    · rename_i hlt
      have hk : ¬ (k = t) := by omega
      have hrest : rest.filter (fun kv => decide (kv.1 = t)) = [] := by
        apply filter_key_eq_nil
        intro y hy
        have := hhead y hy
        simp only [keyLt] at this
        omega
      simp [List.filter_cons, hk, hrest]
    · split
      · rename_i hge heq
        have hrest : rest.filter (fun kv => decide (kv.1 = t)) = [] := by
          apply filter_key_eq_nil
          intro y hy
          have := hhead y hy
          simp only [keyLt] at this
          omega
        simp [List.filter_cons, hrest]
      · rename_i hge hne
        have hk : ¬ (k = t) := by omega
        simp [List.filter_cons, hk, ih htail]

/-- `insertPrice` leaves the value found at every other key unchanged. -/
lemma lookupPrice_insertPrice_ne :
    ∀ {l : List (Int × Int)} {t p k : Int}, k ≠ t →
    lookupPrice (insertPrice l t p) k = lookupPrice l k := by
  intro l
  induction l with
  | nil =>
    intro t p k hk
    have hkt : ¬ t = k := Ne.symm hk
    simp [insertPrice, lookupPrice, hkt]
  | cons kv rest ih =>
    intro t p k hk
    have hkt : ¬ t = k := Ne.symm hk
    obtain ⟨k0, v0⟩ := kv
    simp only [insertPrice]
    split
    · simp [lookupPrice, hkt]
    · split
      · rename_i hge heq
        subst heq
        simp [lookupPrice, hkt]
      · by_cases h0 : k0 = k
        · simp [lookupPrice, h0]
        · simp [lookupPrice, h0, ih hk]

/-! Claim theorems. -/

/-- C1: fragmentation invariance — feeding any byte sequence to the
decoder split into arbitrary reads yields exactly the message sequence of
feeding it in one read (in particular for any concatenation of valid
9-byte frames, at every split). -/
theorem fragmentation_invariance (chunks : List (List Nat)) :
    (runChunks [] chunks).1 = (decodeAll chunks.flatten).1 := by
  rw [runChunks_eq_decodeAll chunks [] (by simp)]
  simp

/-- C3: decoder consumption discipline — with at least 9 bytes buffered
one decode step consumes exactly 9 bytes and emits exactly one message;
with fewer than 9 bytes it emits nothing and leaves the buffer untouched;
the drain loop repeats this, decoding `length / 9` messages and leaving
the under-9-byte remainder buffered. -/
theorem decode_consumption (src : List Nat) :
    (9 ≤ src.length →
      decode src = some (some (mkFrameMessage src), src.drop 9)) ∧
    (src.length < 9 → decode src = some (none, src)) ∧
    (decodeAll src).1.length = src.length / 9 ∧
    (decodeAll src).2 = src.drop (9 * (src.length / 9)) := by
  obtain ⟨h1, h2⟩ := decodeAll_card src.length src le_rfl
  refine ⟨fun h => ?_, fun h => ?_, h1, h2⟩
  · rw [decode_spec]
    simp
    omega
  · rw [decode_spec]
    simp [h]

theorem decode_consumption_witness :
    decode [73, 0, 0, 0, 1, 0, 0, 0, 2, 5] =
      some (some (Message.Insert 1 2), [5]) ∧
    decode [0, 1] = some (none, [0, 1]) ∧
    (decodeAll [73, 0, 0, 0, 1, 0, 0, 0, 2, 5]).1.length = 1 := by
  refine ⟨?_, ?_, ?_⟩
  · have h := (decode_consumption [73, 0, 0, 0, 1, 0, 0, 0, 2, 5]).1 (by decide)
    rw [h]
    decide
  · exact (decode_consumption [0, 1]).2.1 (by decide)
  · have h := (decode_consumption [73, 0, 0, 0, 1, 0, 0, 0, 2, 5]).2.2.1
    rw [h]
    decide

/-- C4: total decoding of complete frames — a 9-byte frame always decodes
(no error path): tag 73 (`'I'`) gives `Insert field1 field2`, tag 81
(`'Q'`) gives `Query field1 field2`, any other tag gives `Invalid` with
both fields discarded. -/
theorem decode_total_frames (frame : List Nat) (h : frame.length = 9) :
    decode frame =
      some (some (
        if frame.headD 0 = 73 then
          Message.Insert (beI32 ((frame.drop 1).take 4))
            (beI32 ((frame.drop 5).take 4))
        else if frame.headD 0 = 81 then
          Message.Query (beI32 ((frame.drop 1).take 4))
            (beI32 ((frame.drop 5).take 4))
        else Message.Invalid), []) := by
  rw [decode_spec]
  have h1 : ¬ frame.length < 9 := by omega
  have h2 : frame.drop 9 = [] := by
    apply List.drop_eq_nil_of_le
    omega
  simp [h1, h2, mkFrameMessage]

theorem decode_total_frames_witness :
    decode [81, 0, 0, 0, 3, 255, 255, 255, 255] =
      some (some (Message.Query 3 (-1)), []) ∧
    decode [80, 0, 0, 0, 3, 255, 255, 255, 255] =
      some (some Message.Invalid, []) := by
  constructor
  · have h := decode_total_frames [81, 0, 0, 0, 3, 255, 255, 255, 255]
      (by decide)
    rw [h]
    decide
  · have h := decode_total_frames [80, 0, 0, 0, 3, 255, 255, 255, 255]
      (by decide)
    rw [h]
    decide

/-- C5: reversed-range edge case — `get_mean` with `start > end` returns 0
for every store, as a normal result rather than an error. -/
theorem mean_reversed_range (prices : List (Int × Int)) (s e : Int)
    (h : e < s) : get_mean prices s e = 0 := by
  unfold get_mean
  rw [if_pos h]

theorem mean_reversed_range_witness :
    (1 : Int) < 3 ∧ get_mean [(2, 7)] 3 1 = 0 :=
  ⟨by decide, mean_reversed_range [(2, 7)] 3 1 (by decide)⟩

/-- C7: session response discipline — a `Query` writes exactly the 4
big-endian bytes of the mean computed on the store at that moment, ahead
of all later output (so responses stay in query arrival order); an
`Insert` writes nothing; an `Invalid` writes exactly the ASCII bytes
`undefined behavior` and the session keeps processing the remaining
messages. -/
theorem session_responses (prices : List (Int × Int)) (msgs : List Message)
    (s e t p : Int) :
    (runSession prices (Message.Query s e :: msgs)).2 =
      i32be (get_mean prices s e) ++ (runSession prices msgs).2 ∧
    (i32be (get_mean prices s e)).length = 4 ∧
    (runSession prices (Message.Insert t p :: msgs)).2 =
      (runSession (insertPrice prices t p) msgs).2 ∧
    (runSession prices (Message.Invalid :: msgs)).2 =
      undefinedBehavior ++ (runSession prices msgs).2 := by
  refine ⟨?_, ?_, ?_, ?_⟩ <;> simp [runSession, processMessage, i32be]

/-- C9: implicit safety — whenever `decode` proceeds past its length
check (at least 9 buffered bytes), the slices `src[1..5]` and `src[5..9]`
passed to `to_num` have length exactly 4, so the length-4 assertion in
`to_num` never fires and `decode` never panics. -/
theorem to_num_assert_safe (src : List Nat) (h : 9 ≤ src.length) :
    ((src.drop 1).take 4).length = 4 ∧
    ((src.drop 5).take 4).length = 4 ∧
    (to_num ((src.drop 1).take 4)).isSome = true ∧
    (to_num ((src.drop 5).take 4)).isSome = true ∧
    (decode src).isSome = true := by
  refine ⟨length_slice1 h, length_slice2 h, ?_, ?_, ?_⟩
  · simp [to_num, List.length_take, List.length_drop]
    omega
  · simp [to_num, List.length_take, List.length_drop]
    omega
  · rw [decode_spec]
    split <;> simp

theorem to_num_assert_safe_witness :
    (to_num (([9, 8, 7, 6, 5, 4, 3, 2, 1].drop 1).take 4)).isSome = true ∧
    (decode [9, 8, 7, 6, 5, 4, 3, 2, 1]).isSome = true := by
  have h := to_num_assert_safe [9, 8, 7, 6, 5, 4, 3, 2, 1] (by decide)
  exact ⟨h.2.2.1, h.2.2.2.2⟩

/-- C10: frame effects — processing a `Query` leaves the price store
exactly as it was, and `insert(t, p)` leaves the value observed at every
key other than `t` unchanged. -/
theorem frame_effects (prices : List (Int × Int)) (s e t p k : Int)
    (hk : k ≠ t) :
    (processMessage prices (Message.Query s e)).1 = prices ∧
    lookupPrice (insertPrice prices t p) k = lookupPrice prices k :=
  ⟨rfl, lookupPrice_insertPrice_ne hk⟩

theorem frame_effects_witness :
    (processMessage [(1, 10), (4, 40)] (Message.Query 0 9)).1 =
      [(1, 10), (4, 40)] ∧
    lookupPrice (insertPrice [(1, 10), (4, 40)] 2 20) 4 =
      lookupPrice [(1, 10), (4, 40)] 4 :=
  frame_effects [(1, 10), (4, 40)] 0 9 2 20 4 (by decide)

/-- C2: mean computation — for `start ≤ end` on a well-formed store
(strictly key-sorted, keys and prices in `i32` range): an empty range
(including the empty store) yields 0; otherwise the result is the sum of
the in-range prices divided by their count with truncation toward zero,
the intermediate sum fits in signed 64-bit arithmetic (no overflow), and
the truncated mean fits in `i32`, so the final narrowing is lossless. -/
theorem mean_range_computation (prices : List (Int × Int)) (s e : Int)
    (hse : s ≤ e)
    (hsort : prices.Pairwise keyLt)
    (hkey : ∀ kv ∈ prices, -(2 ^ 31) ≤ kv.1 ∧ kv.1 < 2 ^ 31)
    (hval : ∀ kv ∈ prices, -(2 ^ 31) ≤ kv.2 ∧ kv.2 < 2 ^ 31) :
    (prices.filter (inRange s e) = [] → get_mean prices s e = 0) ∧
    (prices.filter (inRange s e) ≠ [] →
      -(2 ^ 63) ≤ ((prices.filter (inRange s e)).map Prod.snd).sum ∧
      ((prices.filter (inRange s e)).map Prod.snd).sum < 2 ^ 63 ∧
      get_mean prices s e =
        Int.tdiv ((prices.filter (inRange s e)).map Prod.snd).sum
          ((prices.filter (inRange s e)).length : Int) ∧
      -(2 ^ 31) ≤ get_mean prices s e ∧ get_mean prices s e < 2 ^ 31) := by
  have hnotgt : ¬ s > e := by omega
  constructor
  · intro hnil
    unfold get_mean
    rw [if_neg hnotgt]
    simp [hnil]
  · intro hne
    set E := prices.filter (inRange s e) with hE
    have hsubl : E.Sublist prices := List.filter_sublist prices
    have hsortE : E.Pairwise keyLt := hsort.sublist hsubl
    have hkeysE : (E.map Prod.fst).Pairwise (· < ·) := by
      rw [List.pairwise_map]
      exact hsortE
    have hkeyB : ∀ x ∈ E.map Prod.fst, -(2 ^ 31) ≤ x ∧ x < 2 ^ 31 := by
      intro x hx
      rw [List.mem_map] at hx
      obtain ⟨kv, hkv, rfl⟩ := hx
      exact hkey kv (hsubl.mem hkv)
    have hcount : (E.length : Int) ≤ 2 ^ 32 := by
      have h := length_le_of_sorted_bounded (E.map Prod.fst) (-(2 ^ 31))
        (2 ^ 31) (by omega) hkeysE hkeyB
      rw [List.length_map] at h
      omega
    have hcpos : 0 < E.length := List.length_pos.mpr hne
    have hvalB : ∀ x ∈ E.map Prod.snd, -(2 ^ 31) ≤ x ∧ x < 2 ^ 31 := by
      intro x hx
      rw [List.mem_map] at hx
      obtain ⟨kv, hkv, rfl⟩ := hx
      exact hval kv (hsubl.mem hkv)
    obtain ⟨hs1, hs2⟩ := sum_bounds (E.map Prod.snd) hvalB
    rw [List.length_map] at hs1 hs2
    have hcposI : (0 : Int) < (E.length : Int) := by exact_mod_cast hcpos
    have hlow : -(2 ^ 63) ≤ (E.map Prod.snd).sum := by nlinarith
    have hhigh : (E.map Prod.snd).sum < 2 ^ 63 := by nlinarith
    obtain ⟨ht1, ht2⟩ := @tdiv_mean_bounds ((E.map Prod.snd).sum) (2 ^ 31)
      (E.length : Int) hcposI (by norm_num) hs1 (by nlinarith)
    have hmean : get_mean prices s e =
        Int.tdiv (E.map Prod.snd).sum (E.length : Int) := by
      unfold get_mean
      rw [if_neg hnotgt]
      simp only [← hE]
      have hc0 : ¬ ((E.length : Int) = 0) := by omega
      rw [if_neg hc0, toI64_eq_self hlow hhigh,
        toI32_eq_self ht1 ht2]
    exact ⟨hlow, hhigh, hmean, by rw [hmean]; exact ht1, by rw [hmean]; exact ht2⟩

theorem mean_range_computation_witness :
    get_mean [] 0 5 = 0 ∧
    get_mean [(1, 101), (2, 102), (3, 100)] 1 3 = 101 ∧
    get_mean [(1, 7), (2, -10)] 1 2 = -1 := by
  refine ⟨?_, ?_, ?_⟩
  · exact (mean_range_computation [] 0 5 (by decide) (by decide)
      (by decide) (by decide)).1 rfl
  · have h := (mean_range_computation [(1, 101), (2, 102), (3, 100)] 1 3
      (by decide) (by decide) (by decide) (by decide)).2 (by decide)
    rw [h.2.2.1]
    decide
  · have h := (mean_range_computation [(1, 7), (2, -10)] 1 2
      (by decide) (by decide) (by decide) (by decide)).2 (by decide)
    rw [h.2.2.1]
    decide

/-- C6: price store invariant — a store built by any sequence of inserts
is strictly sorted by signed key (so keys are unique and negative
timestamps order before positive ones); inserting an existing or new
timestamp leaves exactly one entry at that timestamp holding the latest
price (last-write-wins, no duplicate, no averaging); and a query range
containing exactly one key returns exactly that key's price. -/
theorem store_invariant (ops : List (Int × Int)) (t p s e t2 p2 : Int)
    (hse : s ≤ e)
    (hone : (buildStore ops).filter (inRange s e) = [(t2, p2)])
    (hp2 : -(2 ^ 31) ≤ p2 ∧ p2 < 2 ^ 31) :
    (buildStore ops).Pairwise keyLt ∧
    (insertPrice (buildStore ops) t p).filter
      (fun kv => decide (kv.1 = t)) = [(t, p)] ∧
    get_mean (buildStore ops) s e = p2 := by
  have hpw := pairwise_buildStore ops
  refine ⟨hpw, filter_key_insertPrice hpw, ?_⟩
  unfold get_mean
  rw [if_neg (by omega), hone]
  simp only [List.map_cons, List.map_nil, List.sum_cons, List.sum_nil,
    List.length_cons, List.length_nil]
  rw [if_neg (by omega)]
  rw [toI64_eq_self (by omega) (by omega)]
  simp [Int.tdiv_one, toI32_eq_self hp2.1 hp2.2]

theorem store_invariant_witness :
    (buildStore [(-2000000000, 5), (2000000000, 7)]).Pairwise keyLt ∧
    (insertPrice (buildStore [(-2000000000, 5), (2000000000, 7)]) 0 9).filter
      (fun kv => decide (kv.1 = 0)) = [(0, 9)] ∧
    get_mean (buildStore [(-2000000000, 5), (2000000000, 7)])
      (-2000000001) 0 = 5 :=
  store_invariant [(-2000000000, 5), (2000000000, 7)] 0 9
    (-2000000001) 0 (-2000000000) 5 (by decide) (by decide)
    ⟨by decide, by decide⟩

/-- C8 counterexample: the claim that 1-8 trailing bytes at end of stream
cause nothing to be written fails on the code. After one complete Insert
frame and a 5-byte partial frame (the exact stream of the repository's
`truncated_message` test), the session writes the diagnostic payload
`undefined behavior` for the trailing bytes — not nothing. -/
theorem eof_partial_frame_counterexample :
    sessionOutput [[73, 0, 0, 48, 57, 0, 0, 0, 101], [73, 0, 0, 160, 0]] =
      undefinedBehavior ∧ undefinedBehavior ≠ [] := by
  have h1 : decodeAll [73, 0, 0, 48, 57, 0, 0, 0, 101] =
      ([Message.Insert 12345 101], []) := by
    rw [decodeAll_ge (by norm_num)]
    rw [show List.drop 9 [73, 0, 0, 48, 57, 0, 0, 0, 101] = ([] : List Nat)
      from rfl]
    rw [decodeAll_lt (by norm_num)]
    decide
  have h2 : decodeAll [73, 0, 0, 160, 0] = ([], [73, 0, 0, 160, 0]) :=
    decodeAll_lt (by norm_num)
  have h3 : runChunks [] [[73, 0, 0, 48, 57, 0, 0, 0, 101],
      [73, 0, 0, 160, 0]] =
      ([Message.Insert 12345 101], [73, 0, 0, 160, 0]) := by
    simp [runChunks, h1, h2]
  refine ⟨?_, by decide⟩
  rw [sessionOutput, h3]
  simp [runSession, processMessage, eofOutput]

/-- C8 (amended): end of stream with a buffered partial frame — after any
whole number of 9-byte frames, 1 to 8 trailing bytes are never decoded
into a message (no partial-frame message is emitted; they merely stay
buffered), but at end of stream the default `decode_eof` reports them as
an error and the session writes the diagnostic payload `undefined
behavior` exactly once for them, as the repository's `truncated_message`
test requires. -/
theorem eof_partial_frame (src tail : List Nat)
    (h9 : src.length % 9 = 0) (h1 : 1 ≤ tail.length)
    (h8 : tail.length ≤ 8) :
    (decodeAll (src ++ tail)).1 = (decodeAll src).1 ∧
    (decodeAll (src ++ tail)).2 = tail ∧
    sessionOutput [src ++ tail] =
      (runSession [] (decodeAll src).1).2 ++ undefinedBehavior := by
  have hz : (decodeAll src).2 = [] := by
    obtain ⟨-, h2⟩ := decodeAll_card src.length src le_rfl
    rw [h2, Nat.mul_div_cancel' (Nat.dvd_of_mod_eq_zero h9)]
    simp
  have htail : decodeAll tail = ([], tail) := decodeAll_lt (by omega)
  have happ := decodeAll_append src tail
  rw [hz] at happ
  simp only [List.nil_append, htail] at happ
  rw [happ]
  have hchunk : runChunks [] [src ++ tail] = decodeAll (src ++ tail) := by
    simp [runChunks]
  have htne : ¬ tail.isEmpty := by
    cases tail with
    | nil => simp at h1
    | cons x xs => simp
  refine ⟨by simp, rfl, ?_⟩
  rw [sessionOutput, hchunk, happ]
  simp [eofOutput, htne]

theorem eof_partial_frame_witness :
    (decodeAll ([73, 0, 0, 0, 1, 0, 0, 0, 2] ++ [81, 5])).1 =
      (decodeAll [73, 0, 0, 0, 1, 0, 0, 0, 2]).1 ∧
    (decodeAll ([73, 0, 0, 0, 1, 0, 0, 0, 2] ++ [81, 5])).2 = [81, 5] ∧
    sessionOutput [[73, 0, 0, 0, 1, 0, 0, 0, 2] ++ [81, 5]] =
      (runSession [] (decodeAll [73, 0, 0, 0, 1, 0, 0, 0, 2]).1).2 ++
        undefinedBehavior :=
  eof_partial_frame [73, 0, 0, 0, 1, 0, 0, 0, 2] [81, 5]
    (by decide) (by decide) (by decide)

end Bank
